import Mathlib

/-!
Verification development for the ComicBook repository (`onepiece` package).

The definitions below are a shallow embedding of:
  * the chapter-selection resolver (`parser_chapter_str`, §4.1 of the design
    document; the implementation lives in `onepiece/utils` which is not part
    of the sources at hand, so it is modelled from the specification text),
  * the bounded worker pool (`onepiece/worker`, likewise modelled from the
    specification),
  * the data-model classes of `onepiece/crawlerbase.py`
    (`ComicBookItem`, `TagsItem`),
  * the chapter download driver `download_main` of `onepiece/cli.py`.
-/

/-- Error kinds observable by the embedded driver. -/
inductive Err where
  | urlError
  | nameError
  | indexError
  | invalidSpecifier
  | other (n : Nat)
deriving DecidableEq

/-! ## Chapter specifier (modelled from the spec, §4.1) -/

/-- Splits a character list at every occurrence of `c`, keeping empty
segments, like Python's `str.split`. -/
def splitOnChar (c : Char) : List Char → List (List Char)
  | [] => [[]]
  | x :: xs =>
    let r := splitOnChar c xs
    if x = c then [] :: r
    else
      match r with
      | [] => [[x]]
      | g :: gs => (x :: g) :: gs

/-- Value of a decimal digit character, if it is one. -/
def digitVal (c : Char) : Option Nat :=
  if c.isDigit then some (c.toNat - '0'.toNat) else none

/-- Accumulating decimal reader; fails on any non-digit. -/
def parseNatAux (acc : Nat) : List Char → Option Nat
  | [] => some acc
  | c :: cs =>
    match digitVal c with
    | some d => parseNatAux (acc * 10 + d) cs
    | none => none

/-- Reads a non-empty all-digit character list as a natural number. -/
def parseNatChars : List Char → Option Nat
  | [] => none
  | cs => parseNatAux 0 cs

/-- Reads a signed decimal integer: optional leading minus, then digits. -/
def parseIntChars : List Char → Option Int
  | '-' :: cs => (parseNatChars cs).map (fun n => -(n : Int))
  | cs => (parseNatChars cs).map (fun n => (n : Int))

/-- Modelled from the spec: a non-negative integer token is used as-is, a
negative integer `n` resolves to `lastIndex + 1 + n` (so `-1` is the last
index). -/
def resolveNum (last : Int) (n : Int) : Int :=
  if n < 0 then last + 1 + n else n

/-- The inclusive ascending integer interval `[lo, hi]` (empty when
`hi < lo`). -/
def intRange (lo hi : Int) : List Int :=
  (List.range (hi + 1 - lo).toNat).map (fun i : Nat => lo + (i : Int))

/-- Modelled from the spec: both range ends are resolved independently and
the range is expanded inclusively in ascending order, swapping the bounds
when needed. -/
def expandRange (last a b : Int) : List Int :=
  intRange (min (resolveNum last a) (resolveNum last b))
    (max (resolveNum last a) (resolveNum last b))

/-- All ways of splitting a token at a `'-'` character into left and right
parts. -/
def allSplits (tok : List Char) : List (List Char × List Char) :=
  (List.range tok.length).filterMap (fun i =>
    match tok.get? i with
    | some c => if c = '-' then some (tok.take i, tok.drop (i + 1)) else none
    | none => none)

/-- Reads a token of the shape `a-b` with both sides signed integers,
taking the first admissible split. -/
def parseRangeChars (tok : List Char) : Option (Int × Int) :=
  (allSplits tok).findSome? (fun p =>
    match parseIntChars p.1, parseIntChars p.2 with
    | some a, some b => some (a, b)
    | _, _ => none)

/-- Modelled from the spec: a token is a single signed integer or a range
of two signed integers; anything else is invalid. -/
def parseToken (last : Int) (tok : List Char) : Option (List Int) :=
  match parseIntChars tok with
  | some n => some [resolveNum last n]
  | none =>
    match parseRangeChars tok with
    | some p => some (expandRange last p.1 p.2)
    | none => none

/-- First-occurrence duplicate removal, accumulating the values already
seen. -/
def dedupAux (seen : List Int) : List Int → List Int
  | [] => []
  | x :: xs =>
    if x ∈ seen then dedupAux seen xs
    else x :: dedupAux (x :: seen) xs

/-- Removes duplicates while preserving first-seen order. -/
def dedupFirst (l : List Int) : List Int := dedupAux [] l

/-- Resolves each token, concatenating the results; fails if any token is
invalid. -/
def mapJoin (f : List Char → Option (List Int)) :
    List (List Char) → Option (List Int)
  | [] => some []
  | t :: ts =>
    match f t, mapJoin f ts with
    | some xs, some ys => some (xs ++ ys)
    | _, _ => none

/-- Modelled from the spec: `parser_chapter_str` of `onepiece/utils` (the
file is not among the sources at hand).  Fails when `lastIndex < 1`; an
`is_all` flag or a literal `"all"` yields the full ascending sequence;
an empty spec is treated as `"-1"`; otherwise the comma-separated tokens
are resolved and the concatenation is de-duplicated keeping first-seen
order. -/
def parser_chapter_str (chapter_str : String) (last : Int) (is_all : Bool) :
    Option (List Int) :=
  if last < 1 then none
  else if is_all || chapter_str = "all" then some (intRange 1 last)
  else
    match mapJoin (parseToken last)
      (splitOnChar ',' (if chapter_str = "" then "-1" else chapter_str).toList) with
    | some xs => some (dedupFirst xs)
    | none => none

/-! ## Worker pool (modelled from the spec, §4.4; `onepiece/worker` is not
among the sources at hand) -/

/-- Modelled from the spec: the pool's workers pull `(index, url)` pairs
from a shared queue and write each fetched result into a pre-sized result
slot addressed by the index.  A `schedule` lists the indices in the order
the workers complete them; any interleaving of any number of workers is
some schedule.  The pool size bounds concurrency only and plays no role in
slot addressing. -/
def fetchAllSlots (fetchOne : String → Except Err String)
    (urls : List String) (schedule : List Nat) :
    List (Option (Except Err String)) :=
  schedule.foldl
    (fun slots i =>
      match urls.get? i with
      | some u => slots.set i (some (fetchOne u))
      | none => slots)
    (List.replicate urls.length none)

/-- Modelled from the spec: `WorkerPool.fetchAll` returns the slot list in
index order once the schedule has been exhausted. -/
def fetchAll (fetchOne : String → Except Err String) (urls : List String)
    (poolSize : Nat) (schedule : List Nat) :
    List (Option (Except Err String)) :=
  let _ := poolSize
  fetchAllSlots fetchOne urls schedule

/-! ## `onepiece/crawlerbase.py`: `ComicBookItem` -/

/-- One chapter summary, the payload stored by
`ComicBookItem.add_chapter` (`Citem(chapter_number=..., title=...,
source_url=...)`). -/
structure CInfo where
  chapter_number : Int
  title : String
  source_url : String
deriving DecidableEq

/-- Python `dict` assignment on an association list: replacing an existing
key keeps its position, a new key is appended (insertion order). -/
def dictSet {κ ν : Type} [DecidableEq κ] (k : κ) (v : ν) :
    List (κ × ν) → List (κ × ν)
  | [] => [(k, v)]
  | (k', v') :: rest =>
    if k' = k then (k, v) :: rest else (k', v') :: dictSet k v rest

/-- Python `dict` lookup on an association list. -/
def dictGet {κ ν : Type} [DecidableEq κ] (k : κ) : List (κ × ν) → Option ν
  | [] => none
  | (k', v') :: rest => if k' = k then some v' else dictGet k rest

/-- The state of a `ComicBookItem` that `add_chapter` and the `chapters`
property touch: `default_ext_name` and the `citems` two-level dict
`{ext_name: {chapter_number: Citem}}`. -/
structure ComicBookItem where
  default_ext_name : String
  citems : List (String × List (Int × CInfo))
deriving DecidableEq

/-- Read access `self.citems[ext_name]` on the `defaultdict(dict)`. -/
def ComicBookItem.track (item : ComicBookItem) (e : String) :
    List (Int × CInfo) :=
  (dictGet e item.citems).getD []

/-- Method `ComicBookItem.add_chapter` (crawlerbase.py:54-57):
`self.citems[ext_name][chapter_number] = Citem(chapter_number=...,
title=..., source_url=...)`.  The Python default `ext_name or ''` is the
identity on strings, so `ext_name` is taken as a plain string here. -/
def ComicBookItem.add_chapter (item : ComicBookItem) (chapter_number : Int)
    (title source_url : String) (ext_name : String) : ComicBookItem :=
  { item with
    citems := dictSet ext_name
      (dictSet chapter_number
        ⟨chapter_number, title, source_url⟩ (item.track ext_name))
      item.citems }

/-- Comparison of chapter summaries by chapter number, the sort key of
`citems_to_list`. -/
def cle (a b : CInfo) : Prop := a.chapter_number ≤ b.chapter_number

instance : DecidableRel cle :=
  fun a b => (inferInstance : Decidable (a.chapter_number ≤ b.chapter_number))

instance : IsTotal CInfo cle :=
  ⟨fun a b => Int.le_total a.chapter_number b.chapter_number⟩

instance : IsTrans CInfo cle := ⟨fun _ _ _ h h' => le_trans h h'⟩

/-- Method `ComicBookItem.citems_to_list` (crawlerbase.py:59-69): the values of a
track sorted ascending by `chapter_number` (Python `sorted` is a stable
sort; insertion sort realizes the same stable ordering). -/
def citems_to_list (track : List (Int × CInfo)) : List CInfo :=
  List.insertionSort cle (track.map Prod.snd)

/-- The `chapters` property (crawlerbase.py:71-74): the default track,
sorted. -/
def ComicBookItem.chapters (item : ComicBookItem) : List CInfo :=
  citems_to_list (item.track item.default_ext_name)

/-- One recorded `add_chapter` call. -/
inductive AddOp where
  | add (chapter_number : Int) (title source_url ext_name : String)
deriving DecidableEq

/-- Replays a sequence of `add_chapter` calls. -/
def applyOps (item : ComicBookItem) : List AddOp → ComicBookItem
  | [] => item
  | .add n t s e :: ops => applyOps (item.add_chapter n t s e) ops

/-- A fresh `ComicBookItem` with the given default extension name: no
chapters yet. -/
def emptyItem (dflt : String) : ComicBookItem := ⟨dflt, []⟩

/-- The representation invariant `add_chapter` maintains: per-track keys
are duplicate-free and every stored summary's `chapter_number` equals its
key. -/
def ItemInv (item : ComicBookItem) : Prop :=
  ∀ e, (((item.track e)).map Prod.fst).Nodup
    ∧ ∀ kv ∈ item.track e, kv.2.chapter_number = kv.1

/-! ## `onepiece/crawlerbase.py`: `TagsItem` -/

/-- Method `TagsItem.add_tag` (crawlerbase.py:143-152): walk the category list;
at the first entry with the requested category, return unchanged when the
tag id is already present, otherwise append the `(name, tag)` pair; when
no category matches, append a fresh category holding just this pair. -/
def addTag (category name tag : String) :
    List (String × List (String × String)) →
    List (String × List (String × String))
  | [] => [(category, [(name, tag)])]
  | (c, ts) :: rest =>
    if c = category then
      if tag ∈ ts.map Prod.snd then (c, ts) :: rest
      else (c, ts ++ [(name, tag)]) :: rest
    else (c, ts) :: addTag category name tag rest

/-- One recorded `add_tag` call. -/
inductive TagOp where
  | add (category name tag : String)
deriving DecidableEq

/-- Replays a sequence of `add_tag` calls from a given `tags` state. -/
def applyTagOpsFrom : List TagOp → List (String × List (String × String)) →
    List (String × List (String × String))
  | [], tags => tags
  | .add c n t :: ops, tags => applyTagOpsFrom ops (addTag c n t tags)

/-- Replays a sequence of `add_tag` calls on a fresh `TagsItem`. -/
def applyTagOps (ops : List TagOp) : List (String × List (String × String)) :=
  applyTagOpsFrom ops []

/-- The `(name, tag)` pairs stored under the first entry of the given
category. -/
def catTags (c : String) (tags : List (String × List (String × String))) :
    List (String × String) :=
  (dictGet c tags).getD []

/-! ## `onepiece/cli.py`: `download_main` (lines 152-206) -/

/-- The boolean arguments of `download_main` that steer the per-chapter
body.  `mail` stands for the truthiness of the `mail` argument (a `Mail`
object or `None`). -/
structure Flags where
  isSingleImage : Bool
  isGenPdf : Bool
  isGenZip : Bool
  mail : Bool
  isSendMail : Bool
deriving DecidableEq

/-- The fallible operations `download_main` performs for one chapter, plus
the merge helpers; each is an oracle so theorems quantify over every
possible success/failure pattern. -/
structure Env where
  getChapter : Int → Except Err Unit
  save : Int → Except Err String
  saveAsSingleImage : Int → Except Err String
  saveAsPdf : Int → Except Err String
  mailSend : String → Except Err Unit
  saveAsZip : Int → Except Err String
  mergeBooks : List String → Except Err Unit
  mergeZipBooks : List String → Except Err Unit

/-- Observable outcome of one iteration of the chapter loop: which
artifacts were produced, whether the whole `try` body ran to completion,
and whether the inter-chapter sleep happened. -/
structure ChapterRecord where
  number : Int
  success : Bool
  dir : Option String
  singleImage : Option String
  pdf : Option String
  mailed : Option String
  zip : Option String
  slept : Option Nat
deriving DecidableEq

/-- The record of a chapter iteration that failed before saving anything. -/
def emptyRec (n : Int) : ChapterRecord :=
  { number := n, success := false, dir := none, singleImage := none,
    pdf := none, mailed := none, zip := none, slept := none }

/-- Runs an optional artifact step: `if flag: path = act(...)` in the
source. -/
def runIf (b : Bool) (act : Except Err String) : Except Err (Option String) :=
  if b then act.map some else Except.ok none

/-- Result of one chapter-loop iteration: the `chapter_dirs` list and the
`pdf_path` variable after the iteration (both Python locals surviving the
loop), plus the iteration's record. -/
structure BodyOut where
  dirs : List String
  pdfPath : Option String
  record : ChapterRecord
deriving DecidableEq

/-- The `try` body of the chapter loop (cli.py:164-186), with the
`except Exception` of lines 187-189 folded in: each step can raise; a
raise is caught at the loop boundary, keeping all state mutations made so
far (`chapter_dirs.append` at line 170 and the `pdf_path` assignment at
line 176 persist across iterations).  Mailing without any `pdf_path` ever
assigned raises a `NameError` (line 180 reads an unbound local). -/
def chapterBody (env : Env) (f : Flags) (n : Int) (dirs : List String)
    (pdfPath0 : Option String) : BodyOut :=
  match env.getChapter n with
  | .error _ => ⟨dirs, pdfPath0, emptyRec n⟩
  | .ok _ =>
    match env.save n with
    | .error _ => ⟨dirs, pdfPath0, emptyRec n⟩
    | .ok d =>
      let dirs1 := dirs ++ [d]
      match runIf f.isSingleImage (env.saveAsSingleImage n) with
      | .error _ => ⟨dirs1, pdfPath0, { emptyRec n with dir := some d }⟩
      | .ok simg =>
        match runIf f.isGenPdf (env.saveAsPdf n) with
        | .error _ =>
          ⟨dirs1, pdfPath0,
            { emptyRec n with dir := some d, singleImage := simg }⟩
        | .ok pdfNew =>
          let pdfPath1 :=
            match pdfNew with
            | some p => some p
            | none => pdfPath0
          match (if f.isSendMail then
                   match pdfPath1 with
                   | some p => (env.mailSend p).map (fun _ => some p)
                   | none => Except.error Err.nameError
                 else Except.ok none : Except Err (Option String)) with
          | .error _ =>
            ⟨dirs1, pdfPath1,
              { emptyRec n with
                dir := some d
                singleImage := simg
                pdf := pdfNew }⟩
          | .ok mailedP =>
            match runIf f.isGenZip (env.saveAsZip n) with
            | .error _ =>
              ⟨dirs1, pdfPath1,
                { emptyRec n with
                  dir := some d
                  singleImage := simg
                  pdf := pdfNew
                  mailed := mailedP }⟩
            | .ok z =>
              ⟨dirs1, pdfPath1,
                { number := n
                  success := true
                  dir := some d
                  singleImage := simg
                  pdf := pdfNew
                  mailed := mailedP
                  zip := z
                  slept := none }⟩

/-- The chapter loop of cli.py:163-192: run the guarded body for each
chapter number in turn; afterwards, `if crawler_delay:` sleep, outside the
exception handler, so it runs whether or not the body failed. -/
def downloadMainLoop (env : Env) (f : Flags) (delay : Nat) :
    List Int → List String → Option String →
    List String × Option String × List ChapterRecord
  | [], dirs, pdf => (dirs, pdf, [])
  | n :: rest, dirs, pdf =>
    let b := chapterBody env f n dirs pdf
    let r := { b.record with slept := if delay ≠ 0 then some delay else none }
    let rest' := downloadMainLoop env f delay rest b.dirs b.pdfPath
    (rest'.1, rest'.2.1, r :: rest'.2.2)

/-- Line 157 of cli.py: `is_gen_pdf = is_gen_pdf or mail`. -/
def effFlags (f : Flags) : Flags :=
  { f with isGenPdf := f.isGenPdf || f.mail }

/-- cli.py:162-206 after chapter-number resolution: run the loop, then
read `chapter_numbers[0]` and `chapter_numbers[-1]` unconditionally
(lines 194-195 — an `IndexError` escapes on an empty list), then the two
optional merge stages, whose failures are not caught. -/
def download_with_numbers (env : Env) (f : Flags) (delay : Nat)
    (merge mergeZip : Bool) (nums : List Int) :
    List ChapterRecord × Except Err Unit :=
  let out := downloadMainLoop env f delay nums [] none
  (out.2.2,
    match nums with
    | [] => Except.error Err.indexError
    | n0 :: rest =>
      let _start := n0
      let _last := (n0 :: rest).getLast (List.cons_ne_nil n0 rest)
      match (if merge then env.mergeBooks out.1 else Except.ok ()) with
      | .error e => Except.error e
      | .ok _ =>
        match (if mergeZip then env.mergeZipBooks out.1 else Except.ok ()) with
        | .error e => Except.error e
        | .ok _ => Except.ok ())

/-- Function `download_main` (cli.py:152-206): line 157 folds `mail` into
`is_gen_pdf`, line 158 is `chapter_str = chapters or '-1'`, lines 159-161
resolve the chapter numbers (an `InvalidSpecifier` aborts before any
fetch), and the rest is `download_with_numbers`. -/
def download_main (env : Env) (f : Flags) (chapters : Option String)
    (last : Int) (isAll : Bool) (delay : Nat) (merge mergeZip : Bool) :
    List ChapterRecord × Except Err Unit :=
  let chapter_str :=
    match chapters with
    | none => "-1"
    | some s => if s = "" then "-1" else s
  match parser_chapter_str chapter_str last isAll with
  | none => ([], Except.error Err.invalidSpecifier)
  | some nums => download_with_numbers env (effFlags f) delay merge mergeZip nums

/-! ### Concrete environments and flag sets used by witnesses -/

/-- An environment in which every operation succeeds, tagging its output
with the chapter number. -/
def envOk : Env where
  getChapter := fun _ => Except.ok ()
  save := fun n => Except.ok ("dir" ++ toString n)
  saveAsSingleImage := fun n => Except.ok ("img" ++ toString n)
  saveAsPdf := fun n => Except.ok ("pdf" ++ toString n)
  mailSend := fun _ => Except.ok ()
  saveAsZip := fun n => Except.ok ("zip" ++ toString n)
  mergeBooks := fun _ => Except.ok ()
  mergeZipBooks := fun _ => Except.ok ()

/-- An environment in which fetching a chapter always raises. -/
def envFail : Env where
  getChapter := fun _ => Except.error Err.urlError
  save := fun n => Except.ok ("dir" ++ toString n)
  saveAsSingleImage := fun n => Except.ok ("img" ++ toString n)
  saveAsPdf := fun n => Except.ok ("pdf" ++ toString n)
  mailSend := fun _ => Except.ok ()
  saveAsZip := fun n => Except.ok ("zip" ++ toString n)
  mergeBooks := fun _ => Except.ok ()
  mergeZipBooks := fun _ => Except.ok ()

/-- Flag set of a run that asked only for mail delivery: no explicit pdf
request. -/
def flagsMail : Flags :=
  { isSingleImage := false, isGenPdf := false, isGenZip := false,
    mail := true, isSendMail := true }

/-- Flag set of a plain run: no artifacts beyond the folder. -/
def flagsPlain : Flags :=
  { isSingleImage := false, isGenPdf := false, isGenZip := false,
    mail := false, isSendMail := false }

/-! ## Lemmas about the chapter specifier -/

theorem intRange_mem (lo hi x : Int) :
    x ∈ intRange lo hi ↔ lo ≤ x ∧ x ≤ hi := by
  simp only [intRange, List.mem_map, List.mem_range]
  constructor
  · rintro ⟨i, hlt, rfl⟩
    omega
  · rintro ⟨h1, h2⟩
    exact ⟨(x - lo).toNat, by omega, by omega⟩

theorem intRange_sorted (lo hi : Int) :
    (intRange lo hi).Sorted (· ≤ ·) := by
  unfold intRange
  refine List.Pairwise.map _ (fun a b h => ?_) (List.pairwise_lt_range _)
  omega

theorem intRange_nodup (lo hi : Int) : (intRange lo hi).Nodup := by
  unfold intRange
  refine (List.nodup_range _).map ?_
  intro i j h
  have h' : lo + (i : Int) = lo + (j : Int) := h
  omega

theorem dedupAux_mem (l : List Int) :
    ∀ (seen : List Int) (x : Int),
      x ∈ dedupAux seen l ↔ x ∈ l ∧ x ∉ seen := by
  induction l with
  | nil => intro seen x; simp [dedupAux]
  | cons y ys ih =>
    intro seen x
    by_cases hy : y ∈ seen
    · rw [dedupAux, if_pos hy, ih]
      constructor
      · exact fun ⟨h1, h2⟩ => ⟨List.mem_cons_of_mem _ h1, h2⟩
      · rintro ⟨h1, h2⟩
        rcases List.mem_cons.mp h1 with rfl | h1
        · exact absurd hy h2
        · exact ⟨h1, h2⟩
    · rw [dedupAux, if_neg hy]
      rw [List.mem_cons, ih]
      constructor
      · rintro (rfl | ⟨h1, h2⟩)
        · exact ⟨List.mem_cons_self _ _, hy⟩
        · exact ⟨List.mem_cons_of_mem _ h1,
            fun hc => h2 (List.mem_cons_of_mem _ hc)⟩
      · rintro ⟨h1, h2⟩
        rcases List.mem_cons.mp h1 with rfl | h1
        · exact Or.inl rfl
        · by_cases hxy : x = y
          · exact Or.inl hxy
          · exact Or.inr ⟨h1, fun hc => by
              rcases List.mem_cons.mp hc with h | h
              · exact hxy h
              · exact h2 h⟩

theorem dedupAux_nodup (l : List Int) :
    ∀ seen : List Int, (dedupAux seen l).Nodup := by
  induction l with
  | nil => intro seen; simp [dedupAux]
  | cons y ys ih =>
    intro seen
    by_cases hy : y ∈ seen
    · rw [dedupAux, if_pos hy]; exact ih seen
    · rw [dedupAux, if_neg hy, List.nodup_cons]
      refine ⟨fun hc => ?_, ih _⟩
      exact ((dedupAux_mem ys _ y).mp hc).2 (List.mem_cons_self _ _)

theorem dedupAux_sublist (l : List Int) :
    ∀ seen : List Int, (dedupAux seen l).Sublist l := by
  induction l with
  | nil => intro seen; simp [dedupAux]
  | cons y ys ih =>
    intro seen
    by_cases hy : y ∈ seen
    · rw [dedupAux, if_pos hy]
      exact (ih seen).trans (List.sublist_cons_self _ _)
    · rw [dedupAux, if_neg hy]
      exact (ih _).cons₂ y

theorem dedupFirst_nodup (l : List Int) : (dedupFirst l).Nodup :=
  dedupAux_nodup l []

theorem dedupFirst_sublist (l : List Int) : (dedupFirst l).Sublist l :=
  dedupAux_sublist l []

theorem dedupFirst_mem (l : List Int) (x : Int) :
    x ∈ dedupFirst l ↔ x ∈ l := by
  rw [dedupFirst, dedupAux_mem]
  simp

theorem parser_chapter_str_nodup (s : String) (last : Int) (is_all : Bool)
    (nums : List Int) (h : parser_chapter_str s last is_all = some nums) :
    nums.Nodup := by
  unfold parser_chapter_str at h
  split at h
  · exact absurd h (by simp)
  · split at h
    · rw [Option.some.injEq] at h
      exact h ▸ intRange_nodup 1 last
    · split at h
      · rw [Option.some.injEq] at h
        exact h ▸ dedupFirst_nodup _
      · exact absurd h (by simp)

/-- Claim C1: for `lastIndex ≥ 1`, a negative token `-k` (with `k ≥ 1`)
resolves to the concrete index `lastIndex + 1 - k`; in particular
`resolve("-1", 100) = [100]` and `resolve("-2", 100) = [99]`. -/
theorem claim_C1 :
    (∀ last k : Int, 1 ≤ last → 0 < k →
      resolveNum last (-k) = last + 1 - k)
    ∧ parser_chapter_str "-1" 100 false = some [100]
    ∧ parser_chapter_str "-2" 100 false = some [99] := by
  refine ⟨fun last k _ hk => ?_, by decide, by decide⟩
  rw [resolveNum, if_pos (by omega)]
  omega

theorem claim_C1_witness :
    (1 : Int) ≤ 100 ∧ (0 : Int) < 2 ∧ resolveNum 100 (-2) = 99 :=
  ⟨by decide, by decide,
    (claim_C1.1 100 2 (by decide) (by decide)).trans (by decide)⟩

/-- Claim C2: a range is expanded inclusively in ascending order after
resolving both bounds (bounds may come in either order), the final result
is duplicate-free with first-seen order preserved (it is an
order-preserving sub-sequence of the raw token expansion), and in
particular `resolve("3-1", 10) = [1,2,3]` and
`resolve("1-5,7,9-10", 100) = [1,2,3,4,5,7,9,10]`. -/
theorem claim_C2 :
    (∀ last a b : Int, expandRange last a b = expandRange last b a)
    ∧ (∀ last a b : Int, (expandRange last a b).Sorted (· ≤ ·))
    ∧ (∀ last a b x : Int, x ∈ expandRange last a b ↔
        min (resolveNum last a) (resolveNum last b) ≤ x
          ∧ x ≤ max (resolveNum last a) (resolveNum last b))
    ∧ (∀ l : List Int, (dedupFirst l).Sublist l
        ∧ (∀ x, x ∈ dedupFirst l ↔ x ∈ l) ∧ (dedupFirst l).Nodup)
    ∧ (∀ (s : String) (last : Int) (is_all : Bool) (nums : List Int),
        parser_chapter_str s last is_all = some nums → nums.Nodup)
    ∧ parser_chapter_str "3-1" 10 false = some [1, 2, 3]
    ∧ parser_chapter_str "1-5,7,9-10" 100 false
        = some [1, 2, 3, 4, 5, 7, 9, 10] := by
  refine ⟨fun last a b => ?_, fun last a b => intRange_sorted _ _,
    fun last a b x => intRange_mem _ _ _,
    fun l => ⟨dedupFirst_sublist l, dedupFirst_mem l, dedupFirst_nodup l⟩,
    parser_chapter_str_nodup, by decide, by decide⟩
  rw [expandRange, expandRange, min_comm, max_comm]

theorem claim_C2_witness : ([2, 5] : List Int).Nodup :=
  claim_C2.2.2.2.2.1 "2,5,2" 7 false [2, 5] (by decide)

/-! ## Lemmas about the worker pool -/

theorem fetchAllSlots_length (fetchOne : String → Except Err String)
    (urls : List String) (schedule : List Nat)
    (slots0 : List (Option (Except Err String)))
    (h0 : slots0.length = urls.length) :
    (schedule.foldl
      (fun slots i =>
        match urls.get? i with
        | some u => slots.set i (some (fetchOne u))
        | none => slots) slots0).length = urls.length := by
  induction schedule generalizing slots0 with
  | nil => exact h0
  | cons j rest ih =>
    rw [List.foldl_cons]
    apply ih
    cases hj : urls.get? j <;> simp [h0]

theorem fetchAllSlots_get? (fetchOne : String → Except Err String)
    (urls : List String) (schedule : List Nat)
    (slots0 : List (Option (Except Err String)))
    (h0 : slots0.length = urls.length) (i : Nat) :
    (schedule.foldl
      (fun slots i =>
        match urls.get? i with
        | some u => slots.set i (some (fetchOne u))
        | none => slots) slots0).get? i
      = if i ∈ schedule ∧ i < urls.length
        then (urls.get? i).map (fun u => some (fetchOne u))
        else slots0.get? i := by
  induction schedule generalizing slots0 with
  | nil => simp
  | cons j rest ih =>
    rw [List.foldl_cons]
    have hlen1 :
        (match urls.get? j with
          | some u => slots0.set j (some (fetchOne u))
          | none => slots0).length = urls.length := by
      cases hj : urls.get? j <;> simp [h0]
    rw [ih _ hlen1]
    by_cases hmem : i ∈ rest ∧ i < urls.length
    · rw [if_pos hmem, if_pos ⟨List.mem_cons_of_mem _ hmem.1, hmem.2⟩]
    · rw [if_neg hmem]
      by_cases hij : i = j
      · subst hij
        cases hj : urls.get? i with
        | none =>
          have hni : ¬ i < urls.length := by
            have := List.get?_eq_none.mp hj
            omega
          rw [if_neg (fun hc => hni hc.2)]
        | some u =>
          have hi : i < urls.length := by
            rcases List.get?_eq_some.mp hj with ⟨hlt, _⟩
            exact hlt
          rw [if_pos ⟨List.mem_cons_self _ _, hi⟩]
          show (slots0.set i (some (fetchOne u))).get? i
              = Option.map (fun u => some (fetchOne u)) (some u)
          rw [List.get?_set_eq_of_lt _ (h0 ▸ hi)]
          rfl
      · have heq :
            (match urls.get? j with
              | some u => slots0.set j (some (fetchOne u))
              | none => slots0).get? i = slots0.get? i := by
          cases hj : urls.get? j
          · rfl
          · exact List.get?_set_ne _ _ (fun hc => hij hc.symm)
        rw [heq]
        rw [if_neg (fun hc => hmem ⟨(List.mem_cons.mp hc.1).resolve_left hij, hc.2⟩)]

/-- Claim C3: `fetchAll` returns one slot per url; the slot at index `i`
holds the outcome of fetching `urls[i]` once index `i` has been scheduled;
and the whole output is independent of pool size and completion order
(any two full schedules give identical outputs). -/
theorem claim_C3 (fetchOne : String → Except Err String)
    (urls : List String) (poolSize poolSize' : Nat)
    (schedule schedule' : List Nat) :
    (fetchAll fetchOne urls poolSize schedule).length = urls.length
    ∧ (∀ i u, urls.get? i = some u → i ∈ schedule →
        (fetchAll fetchOne urls poolSize schedule).get? i
          = some (some (fetchOne u)))
    ∧ ((∀ i, i < urls.length → i ∈ schedule) →
       (∀ i, i < urls.length → i ∈ schedule') →
       fetchAll fetchOne urls poolSize schedule
         = fetchAll fetchOne urls poolSize' schedule') := by
  refine ⟨?_, ?_, ?_⟩
  · exact fetchAllSlots_length fetchOne urls schedule _ (by simp)
  · intro i u hu hi
    rw [fetchAll, fetchAllSlots,
      fetchAllSlots_get? fetchOne urls schedule _ (by simp) i]
    have hlt : i < urls.length := by
      rcases List.get?_eq_some.mp hu with ⟨hlt, _⟩
      exact hlt
    rw [if_pos ⟨hi, hlt⟩, hu]
    rfl
  · intro hcov hcov'
    apply List.ext
    intro i
    rw [fetchAll, fetchAll, fetchAllSlots, fetchAllSlots,
      fetchAllSlots_get? fetchOne urls schedule _ (by simp) i,
      fetchAllSlots_get? fetchOne urls schedule' _ (by simp) i]
    by_cases hlt : i < urls.length
    · rw [if_pos ⟨hcov i hlt, hlt⟩, if_pos ⟨hcov' i hlt, hlt⟩]
    · rw [if_neg (fun hc => hlt hc.2), if_neg (fun hc => hlt hc.2)]

theorem claim_C3_witness :
    (["a", "b"].get? 1 = some "b")
    ∧ (1 ∈ ([1, 0] : List Nat))
    ∧ (fetchAll (fun u => Except.ok u) ["a", "b"] 4 [1, 0]).get? 1
        = some (some (Except.ok "b")) :=
  ⟨by decide, by decide,
    (claim_C3 (fun u => Except.ok u) ["a", "b"] 4 4 [1, 0] [1, 0]).2.1
      1 "b" (by decide) (by decide)⟩

/-! ## Lemmas about `download_main` -/

theorem chapterBody_number (env : Env) (f : Flags) (n : Int)
    (dirs : List String) (pdf : Option String) :
    (chapterBody env f n dirs pdf).record.number = n := by
  unfold chapterBody
  repeat' split
  all_goals dsimp only
  all_goals repeat' split
  all_goals rfl

/-- Claim C4: every chapter number in the resolved list is processed by
the loop — a failing chapter leaves its (failed) record and the loop moves
on — and with no merge requested the whole run finishes without
propagating any per-chapter error. -/
theorem claim_C4 (env : Env) (f : Flags) (delay : Nat) (nums : List Int)
    (dirs : List String) (pdf : Option String) :
    (((downloadMainLoop env f delay nums dirs pdf).2.2).map
        (fun r => r.number)) = nums
    ∧ (nums ≠ [] →
        (download_with_numbers env f delay false false nums).2
          = Except.ok ()) := by
  constructor
  · induction nums generalizing dirs pdf with
    | nil => rfl
    | cons n rest ih =>
      rw [downloadMainLoop]
      simp only [List.map_cons]
      rw [ih]
      simp [chapterBody_number]
  · intro hne
    cases nums with
    | nil => exact absurd rfl hne
    | cons n0 rest => rfl

theorem claim_C4_witness :
    ([1] : List Int) ≠ []
    ∧ (download_with_numbers envFail flagsPlain 0 false false [1]).2
        = Except.ok () :=
  ⟨by decide, (claim_C4 envFail flagsPlain 0 [1] [] none).2 (by decide)⟩

/-- Claim C6: `download_main` treats a missing or empty chapter-selection
string exactly like the string `"-1"`. -/
theorem claim_C6 (env : Env) (f : Flags) (last : Int) (isAll : Bool)
    (delay : Nat) (merge mergeZip : Bool) :
    download_main env f none last isAll delay merge mergeZip
        = download_main env f (some "-1") last isAll delay merge mergeZip
    ∧ download_main env f (some "") last isAll delay merge mergeZip
        = download_main env f (some "-1") last isAll delay merge mergeZip :=
  ⟨rfl, rfl⟩

/-- Claim C7: with a non-zero `crawler_delay`, every chapter iteration —
successful or failed — ends with a sleep of that delay. -/
theorem claim_C7 (env : Env) (f : Flags) (delay : Nat) (nums : List Int)
    (dirs : List String) (pdf : Option String) (hd : delay ≠ 0) :
    ∀ r ∈ (downloadMainLoop env f delay nums dirs pdf).2.2,
      r.slept = some delay := by
  induction nums generalizing dirs pdf with
  | nil => intro r hr; exact absurd hr (by simp [downloadMainLoop])
  | cons n rest ih =>
    intro r hr
    rw [downloadMainLoop] at hr
    rcases List.mem_cons.mp hr with rfl | hr
    · show (if delay ≠ 0 then some delay else none) = some delay
      rw [if_pos hd]
    · exact ih _ _ r hr

theorem claim_C7_witness :
    (3 : Nat) ≠ 0
    ∧ ((downloadMainLoop envFail flagsPlain 3 [5] [] none).2.2.getD 0
        (emptyRec 0)).slept = some 3 :=
  ⟨by decide,
    claim_C7 envFail flagsPlain 3 [5] [] none (by decide) _ (by decide)⟩

/-- Claim C9: with an empty resolved chapter-number list, the driver ends
with an `IndexError` (lines 194-195 of cli.py read `chapter_numbers[0]`
unconditionally), whatever the merge flags are. -/
theorem claim_C9 (env : Env) (f : Flags) (delay : Nat)
    (merge mergeZip : Bool) :
    (download_with_numbers env f delay merge mergeZip []).2
      = Except.error Err.indexError := rfl

theorem chapterBody_pdf_of_mail (env : Env) (f : Flags) (n : Int)
    (dirs : List String) (pdf0 : Option String)
    (hpdf : f.isGenPdf = true)
    (hs : (chapterBody env f n dirs pdf0).record.success = true) :
    ∃ p, (chapterBody env f n dirs pdf0).record.pdf = some p
      ∧ (f.isSendMail = true →
          (chapterBody env f n dirs pdf0).record.mailed = some p) := by
  rcases h1 : env.getChapter n with e1 | u1
  · unfold chapterBody at hs
    simp [h1, emptyRec] at hs
  rcases h2 : env.save n with e2 | d
  · unfold chapterBody at hs
    simp [h1, h2, emptyRec] at hs
  rcases h3 : runIf f.isSingleImage (env.saveAsSingleImage n) with e3 | simg
  · unfold chapterBody at hs
    simp [h1, h2, h3, emptyRec] at hs
  rcases h4 : env.saveAsPdf n with e4 | p
  · have hr4 : runIf f.isGenPdf (env.saveAsPdf n) = Except.error e4 := by
      rw [hpdf, h4]; rfl
    unfold chapterBody at hs
    simp [h1, h2, h3, hr4, emptyRec] at hs
  have hr4 : runIf f.isGenPdf (env.saveAsPdf n) = Except.ok (some p) := by
    rw [hpdf, h4]; rfl
  rcases hm : f.isSendMail
  · rcases h6 : runIf f.isGenZip (env.saveAsZip n) with e6 | z
    · unfold chapterBody at hs
      simp [h1, h2, h3, hr4, hm, h6, emptyRec] at hs
    · refine ⟨p, ?_, fun hc => absurd hc (by decide)⟩
      unfold chapterBody
      simp [h1, h2, h3, hr4, hm, h6]
  · rcases h5 : env.mailSend p with e5 | u5
    · unfold chapterBody at hs
      simp [h1, h2, h3, hr4, hm, h5, Except.map, emptyRec] at hs
    rcases h6 : runIf f.isGenZip (env.saveAsZip n) with e6 | z
    · unfold chapterBody at hs
      simp [h1, h2, h3, hr4, hm, h5, h6, Except.map, emptyRec] at hs
    · refine ⟨p, ?_, fun _ => ?_⟩
      · unfold chapterBody
        simp [h1, h2, h3, hr4, hm, h5, h6, Except.map]
      · unfold chapterBody
        simp [h1, h2, h3, hr4, hm, h5, h6, Except.map]

/-- Claim C10: a truthy `mail` argument makes `download_main` behave as if
PDF output had been requested: every chapter whose loop body completed has
a generated PDF, and when mail sending is on, the mailed attachment is
exactly that chapter's PDF path. -/
theorem claim_C10 (env : Env) (f : Flags) (delay : Nat) (nums : List Int)
    (dirs : List String) (pdf0 : Option String) (hmail : f.mail = true) :
    ∀ r ∈ (downloadMainLoop env (effFlags f) delay nums dirs pdf0).2.2,
      r.success = true →
      ∃ p, r.pdf = some p
        ∧ (f.isSendMail = true → r.mailed = some p) := by
  induction nums generalizing dirs pdf0 with
  | nil => intro r hr; exact absurd hr (by simp [downloadMainLoop])
  | cons n rest ih =>
    intro r hr hsucc
    rw [downloadMainLoop] at hr
    rcases List.mem_cons.mp hr with rfl | hr
    · have hgen : (effFlags f).isGenPdf = true := by
        simp [effFlags, hmail]
      obtain ⟨p, hp, hmailed⟩ :=
        chapterBody_pdf_of_mail env (effFlags f) n dirs pdf0 hgen hsucc
      exact ⟨p, hp, hmailed⟩
    · exact ih _ _ r hr hsucc

theorem claim_C10_witness :
    flagsMail.mail = true
    ∧ ((downloadMainLoop envOk (effFlags flagsMail) 0 [7] [] none).2.2.getD 0
          (emptyRec 0)).success = true
    ∧ ∃ p,
        ((downloadMainLoop envOk (effFlags flagsMail) 0 [7] [] none).2.2.getD 0
          (emptyRec 0)).pdf = some p
        ∧ (flagsMail.isSendMail = true →
            ((downloadMainLoop envOk (effFlags flagsMail) 0 [7] [] none).2.2.getD 0
              (emptyRec 0)).mailed = some p) :=
  ⟨rfl, by decide,
    claim_C10 envOk flagsMail 0 [7] [] none rfl _ (by decide) (by decide)⟩

/-! ## Lemmas about `ComicBookItem` -/

theorem dictGet_dictSet {κ ν : Type} [DecidableEq κ] (k m : κ) (v : ν)
    (l : List (κ × ν)) :
    dictGet m (dictSet k v l) = if m = k then some v else dictGet m l := by
  induction l with
  | nil =>
    by_cases h : m = k
    · subst h; simp [dictSet, dictGet]
    · have h' : ¬ k = m := fun hc => h hc.symm
      simp [dictSet, dictGet, h, h']
  | cons kv rest ih =>
    obtain ⟨k', v'⟩ := kv
    by_cases hk : k' = k
    · subst hk
      by_cases h : m = k'
      · subst h; simp [dictSet, dictGet]
      · have h' : ¬ k' = m := fun hc => h hc.symm
        simp [dictSet, dictGet, h, h']
    · by_cases h : k' = m
      · subst h
        rw [dictSet, if_neg hk, dictGet, if_pos rfl,
          if_neg (fun hc : k' = k => hk hc), dictGet, if_pos rfl]
      · rw [dictSet, if_neg hk, dictGet, if_neg h, ih, dictGet, if_neg h]

theorem mem_keys_dictSet {κ ν : Type} [DecidableEq κ] (k m : κ) (v : ν)
    (l : List (κ × ν)) :
    m ∈ (dictSet k v l).map Prod.fst ↔ m = k ∨ m ∈ l.map Prod.fst := by
  induction l with
  | nil => simp [dictSet]
  | cons kv rest ih =>
    obtain ⟨k', v'⟩ := kv
    by_cases hk : k' = k
    · subst hk
      simp [dictSet]
    · rw [dictSet, if_neg hk]
      simp only [List.map_cons, List.mem_cons, ih]
      tauto

theorem keys_nodup_dictSet {κ ν : Type} [DecidableEq κ] (k : κ) (v : ν)
    (l : List (κ × ν)) (h : (l.map Prod.fst).Nodup) :
    ((dictSet k v l).map Prod.fst).Nodup := by
  induction l with
  | nil => simp [dictSet]
  | cons kv rest ih =>
    obtain ⟨k', v'⟩ := kv
    simp only [List.map_cons, List.nodup_cons] at h
    by_cases hk : k' = k
    · subst hk
      simpa [dictSet, List.nodup_cons] using h
    · rw [dictSet, if_neg hk]
      simp only [List.map_cons, List.nodup_cons]
      refine ⟨?_, ih h.2⟩
      rw [mem_keys_dictSet]
      rintro (rfl | hmem)
      · exact hk rfl
      · exact h.1 hmem

theorem mem_dictSet {κ ν : Type} [DecidableEq κ] (k : κ) (v : ν)
    (l : List (κ × ν)) :
    ∀ kv ∈ dictSet k v l, kv = (k, v) ∨ kv ∈ l := by
  induction l with
  | nil =>
    intro kv h
    simp [dictSet] at h
    exact Or.inl h
  | cons kv' rest ih =>
    obtain ⟨k', v'⟩ := kv'
    intro kv h
    by_cases hk : k' = k
    · subst hk
      rw [dictSet, if_pos rfl] at h
      rcases List.mem_cons.mp h with rfl | h
      · exact Or.inl rfl
      · exact Or.inr (List.mem_cons_of_mem _ h)
    · rw [dictSet, if_neg hk] at h
      rcases List.mem_cons.mp h with rfl | h
      · exact Or.inr (List.mem_cons_self _ _)
      · rcases ih kv h with h' | h'
        · exact Or.inl h'
        · exact Or.inr (List.mem_cons_of_mem _ h')

theorem track_add_chapter (item : ComicBookItem) (n : Int)
    (t s e e' : String) :
    (item.add_chapter n t s e).track e'
      = if e' = e then dictSet n ⟨n, t, s⟩ (item.track e)
        else item.track e' := by
  unfold ComicBookItem.add_chapter ComicBookItem.track
  simp only
  rw [dictGet_dictSet]
  by_cases h : e' = e
  · simp [h, ComicBookItem.track]
  · simp [h]

theorem itemInv_empty (dflt : String) : ItemInv (emptyItem dflt) := by
  intro e
  constructor <;> simp [emptyItem, ComicBookItem.track, dictGet]

theorem itemInv_add (item : ComicBookItem) (hinv : ItemInv item)
    (n : Int) (t s e : String) : ItemInv (item.add_chapter n t s e) := by
  intro e'
  rw [track_add_chapter]
  by_cases h : e' = e
  · rw [if_pos h]
    refine ⟨keys_nodup_dictSet _ _ _ (hinv e).1, ?_⟩
    intro kv hkv
    rcases mem_dictSet _ _ _ kv hkv with rfl | hkv'
    · rfl
    · exact (hinv e).2 kv hkv'
  · rw [if_neg h]
    exact hinv e'

theorem itemInv_applyOps (item : ComicBookItem) (hinv : ItemInv item)
    (ops : List AddOp) : ItemInv (applyOps item ops) := by
  induction ops generalizing item with
  | nil => exact hinv
  | cons op rest ih =>
    cases op with
    | add n t s e => exact ih _ (itemInv_add item hinv n t s e)

theorem chapters_sorted (item : ComicBookItem) : item.chapters.Sorted cle := by
  unfold ComicBookItem.chapters citems_to_list
  exact List.sorted_insertionSort cle _

theorem chapters_numbers_nodup (item : ComicBookItem) (hinv : ItemInv item) :
    ((item.chapters).map (fun c => c.chapter_number)).Nodup := by
  have hperm : item.chapters.Perm
      ((item.track item.default_ext_name).map Prod.snd) := by
    unfold ComicBookItem.chapters citems_to_list
    exact List.perm_insertionSort cle _
  have hperm2 := hperm.map (fun c : CInfo => c.chapter_number)
  have heq : ((item.track item.default_ext_name).map Prod.snd).map
        (fun c : CInfo => c.chapter_number)
      = (item.track item.default_ext_name).map Prod.fst := by
    rw [List.map_map]
    apply List.map_congr_left
    intro kv hkv
    exact (hinv _).2 kv hkv
  rw [heq] at hperm2
  exact hperm2.nodup_iff.mpr (hinv _).1

/-- Claim C5: chapter indices are unique within each extension-name track;
re-adding an index replaces the stored entry while other indices and other
tracks are untouched; and the `chapters` view is sorted ascending by
`chapter_number` with no repeated index. -/
theorem claim_C5 (dflt : String) (ops : List AddOp) :
    (∀ e, (((applyOps (emptyItem dflt) ops).track e).map Prod.fst).Nodup)
    ∧ (∀ (item : ComicBookItem) (n : Int) (t s e e' : String) (m : Int),
        dictGet m ((item.add_chapter n t s e).track e')
          = if e' = e ∧ m = n then some ⟨n, t, s⟩
            else dictGet m (item.track e'))
    ∧ (applyOps (emptyItem dflt) ops).chapters.Sorted cle
    ∧ (((applyOps (emptyItem dflt) ops).chapters).map
        (fun c => c.chapter_number)).Nodup := by
  have hinv := itemInv_applyOps _ (itemInv_empty dflt) ops
  refine ⟨fun e => (hinv e).1, ?_, chapters_sorted _,
    chapters_numbers_nodup _ hinv⟩
  intro item n t s e e' m
  rw [track_add_chapter]
  by_cases h : e' = e
  · rw [if_pos h, dictGet_dictSet]
    by_cases hm : m = n
    · rw [if_pos hm, if_pos ⟨h, hm⟩]
    · rw [if_neg hm, if_neg (fun hc : e' = e ∧ m = n => hm hc.2), h]
  · rw [if_neg h, if_neg (fun hc : e' = e ∧ m = n => h hc.1)]

/-! ## Lemmas about `TagsItem` -/

theorem addTag_ids_nodup (c n t : String)
    (tags : List (String × List (String × String)))
    (h : ∀ p ∈ tags, (p.2.map Prod.snd).Nodup) :
    ∀ p ∈ addTag c n t tags, (p.2.map Prod.snd).Nodup := by
  induction tags with
  | nil =>
    intro p hp
    rw [addTag] at hp
    rcases List.mem_cons.mp hp with rfl | hp
    · simp
    · exact absurd hp (by simp)
  | cons q rest ih =>
    obtain ⟨c', ts⟩ := q
    intro p hp
    by_cases hc : c' = c
    · by_cases ht : t ∈ ts.map Prod.snd
      · rw [addTag, if_pos hc, if_pos ht] at hp
        exact h p hp
      · rw [addTag, if_pos hc, if_neg ht] at hp
        rcases List.mem_cons.mp hp with rfl | hp'
        · show ((ts ++ [(n, t)]).map Prod.snd).Nodup
          rw [List.map_append, List.nodup_append]
          refine ⟨h (c', ts) (List.mem_cons_self _ _), by simp, ?_⟩
          intro a ha hb
          simp only [List.map_cons, List.map_nil, List.mem_singleton] at hb
          subst hb
          exact ht ha
        · exact h p (List.mem_cons_of_mem _ hp')
    · rw [addTag, if_neg hc] at hp
      rcases List.mem_cons.mp hp with rfl | hp'
      · exact h _ (List.mem_cons_self _ _)
      · exact ih (fun q hq => h q (List.mem_cons_of_mem _ hq)) p hp'

theorem applyTagOps_ids_nodup (ops : List TagOp) :
    ∀ p ∈ applyTagOps ops, (p.2.map Prod.snd).Nodup := by
  suffices haux : ∀ (ops : List TagOp)
      (tags : List (String × List (String × String))),
      (∀ p ∈ tags, (p.2.map Prod.snd).Nodup) →
      ∀ p ∈ applyTagOpsFrom ops tags, (p.2.map Prod.snd).Nodup by
    exact haux ops [] (by simp)
  intro ops
  induction ops with
  | nil => intro tags h; exact h
  | cons op rest ih =>
    cases op with
    | add c n t =>
      intro tags h
      exact ih _ (addTag_ids_nodup c n t tags h)

theorem addTag_mem_unchanged (c n t : String)
    (tags : List (String × List (String × String)))
    (h : t ∈ (catTags c tags).map Prod.snd) :
    addTag c n t tags = tags := by
  induction tags with
  | nil => exact absurd h (by simp [catTags, dictGet])
  | cons q rest ih =>
    obtain ⟨c', ts⟩ := q
    by_cases hc : c' = c
    · have hts : catTags c ((c', ts) :: rest) = ts := by
        simp [catTags, dictGet, hc]
      rw [hts] at h
      rw [addTag, if_pos hc, if_pos h]
    · have hts : catTags c ((c', ts) :: rest) = catTags c rest := by
        simp [catTags, dictGet, hc]
      rw [hts] at h
      rw [addTag, if_neg hc, ih h]

/-- Claim C8: within each category the stored tag ids are pairwise
distinct; adding a pair whose tag id is already present in that category
leaves the tag list unchanged; and the same tag id can live under two
different categories. -/
theorem claim_C8 :
    (∀ (ops : List TagOp), ∀ p ∈ applyTagOps ops,
        (p.2.map Prod.snd).Nodup)
    ∧ (∀ (tags : List (String × List (String × String))) (c n t : String),
        t ∈ (catTags c tags).map Prod.snd → addTag c n t tags = tags)
    ∧ ("t0" ∈ (catTags "c1"
          (applyTagOps [TagOp.add "c1" "n1" "t0",
            TagOp.add "c2" "n2" "t0"])).map Prod.snd
        ∧ "t0" ∈ (catTags "c2"
          (applyTagOps [TagOp.add "c1" "n1" "t0",
            TagOp.add "c2" "n2" "t0"])).map Prod.snd) :=
  ⟨applyTagOps_ids_nodup,
    fun tags c n t h => addTag_mem_unchanged c n t tags h,
    by decide, by decide⟩

theorem claim_C8_witness :
    ((([("n1", "t1")] : List (String × String)).map Prod.snd).Nodup)
    ∧ addTag "c" "x" "t1" [("c", [("n1", "t1")])]
        = [("c", [("n1", "t1")])] :=
  ⟨claim_C8.1 [TagOp.add "c" "n1" "t1"] ("c", [("n1", "t1")]) (by decide),
    claim_C8.2.1 [("c", [("n1", "t1")])] "c" "x" "t1" (by decide)⟩
